import Mathlib

/-!
# Verification of the omega-red harvesting core

Shallow embedding of the rate-adaptive harvesting engine of the
omega-red / omega-red-cappa-edition Reddit scraper, together with proofs
of the spec's testable properties.

The embedding follows the JavaScript source:
* `fetchWithRateLimit` (quota pacing and 429 exponential backoff),
* `fetchAllThreads` (cursor-paginated listing fetcher),
* `fetchAllComments` / `extractComments` (reply-tree flattening),
* the `pMap` per-thread callback (failure-isolating batch),
* the `threadComments.forEach` tree assembly in `main` (forest builder),
* the inline total-work bookkeeping in `main` (work estimator),
* `normalizeText`.

Machine numbers are modelled as `Int`/`Rat` (JS numbers at the values the
program manipulates), absent JS fields as `Option`, and network effects as
explicit response oracles passed to the functions.
-/

namespace OmegaRed

/-- A network response as seen by `fetchWithRateLimit`: HTTP status plus the
parsed `x-ratelimit-remaining` and `x-ratelimit-reset` headers (`none` models
`parseFloat` returning `NaN` for a missing header). -/
structure Resp where
  status : ℤ
  remaining : Option ℚ
  reset : Option ℚ
deriving Repr, DecidableEq

/-- The throttle computation of `fetchWithRateLimit`:
`throttle = minDelay`; if both headers parse and `remaining > 0`,
`throttle = max(minDelay, ceil(reset*1000/remaining))`, then
`if remaining < 3` floor at `10000` else `if remaining < 10` floor at
`highDelay`; otherwise if only `remaining` parses and `remaining < 10`,
`throttle = highDelay`. -/
def computeThrottle (minDelay highDelay : ℤ) (remaining reset : Option ℚ) : ℤ :=
  match remaining, reset with
  | some r, some t =>
    if 0 < r then
      let base := max minDelay ⌈(t * 1000) / r⌉
      if r < 3 then max base 10000
      else if r < 10 then max base highDelay
      else base
    else if r < 10 then highDelay else minDelay
  | some r, none => if r < 10 then highDelay else minDelay
  | none, _ => minDelay

/-- The retry loop of `fetchWithRateLimit`: `resp n` is the response of the
`n`-th attempt; the first component collects the backoff waits applied after
each 429 response; the result is `none` when the retry budget is exhausted
(the thrown quota error) and otherwise the returned response paired with the
pacing delay applied before returning it.  `fuel` counts the iterations still
allowed by `while (attempt <= maxRetries)`. -/
def rlLoop (minDelay highDelay : ℤ) (resp : ℕ → Resp) :
    ℕ → ℕ → ℤ → List ℤ × Option (Resp × ℤ)
  | 0, _, _ => ([], none)
  | fuel+1, attempt, delay =>
    let r := resp attempt
    let throttle := computeThrottle minDelay highDelay r.remaining r.reset
    if r.status = 429 then
      let rest := rlLoop minDelay highDelay resp fuel (attempt + 1) (delay * 2)
      (delay :: rest.1, rest.2)
    else
      ([], some (r, throttle))

/-- `fetchWithRateLimit(url, options, {maxRetries, baseDelay, minDelay,
highDelay})`: runs the retry loop starting at `attempt = 0`,
`delay = baseDelay`, allowing `maxRetries + 1` iterations. -/
def fetchWithRateLimit (maxRetries : ℕ) (baseDelay minDelay highDelay : ℤ)
    (resp : ℕ → Resp) : List ℤ × Option (Resp × ℤ) :=
  rlLoop minDelay highDelay resp (maxRetries + 1) 0 baseDelay

/-- The pacing delay as worded by the spec claim: the formula
`max(minDelayMs, ceil(resetSeconds*1000/remaining))`, "floored at
`highDelayMs` when `remaining < 10` and at 10,000 ms when `remaining < 3`"
(both floors read as applicable whenever their conditions hold). -/
def claimPacingDelay (minDelay highDelay : ℤ) (r t : ℚ) : ℤ :=
  let d := max minDelay ⌈(t * 1000) / r⌉
  let d1 := if r < 10 then max d highDelay else d
  if r < 3 then max d1 10000 else d1

/-- Work-estimator update from `main`
(`if (threads.length < count) totalWork -= count - threads.length`). -/
def onParentBatch (totalWork requested actual : ℤ) : ℤ :=
  if actual < requested then totalWork - (requested - actual) else totalWork

/-- Work-estimator update from `main` (`totalWork += comments.length`). -/
def onReplyBatch (totalWork replyCount : ℤ) : ℤ :=
  totalWork + replyCount

/-- `normalizeText` over an abstract tokenizer `tok` (the Treebank word
tokenizer of the `natural` library is an external dependency): a falsy input
(`null`/`undefined` modelled as `none`, or the empty string) yields `''`;
otherwise the lowercased text is tokenized and rejoined with single spaces. -/
def normalizeText (tok : String → List String) (text : Option String) : String :=
  match text with
  | none => ""
  | some s => if s = "" then "" else String.intercalate " " (tok s.toLower)

/-- A listing entry as it appears on the wire (`child.data` in
`fetchAllThreads`); `selftext`/`title` may be absent. -/
structure TChild where
  selftext : Option String
  title : Option String
  url : String
  id : String
  name : String
  created_utc : ℤ
  author : String
  ups : ℤ
  downs : ℤ
deriving Repr, DecidableEq

/-- A parent-item record as pushed by `fetchAllThreads`. -/
structure Thread where
  text : String
  title : String
  url : String
  id : String
  subreddit : String
  meta : String
  time : ℤ
  author : String
  ups : ℤ
  downs : ℤ
  authorlinkkarma : String
  authorcommentkarma : String
  authorisgold : String
deriving Repr, DecidableEq

/-- The record built for one listing entry in `fetchAllThreads`. -/
def mkThread (subreddit meta_ : String) (tok : String → List String)
    (t : TChild) : Thread :=
  { text := normalizeText tok t.selftext
    title := normalizeText tok t.title
    url := t.url
    id := t.id
    subreddit := subreddit
    meta := meta_
    time := t.created_utc
    author := t.author
    ups := t.ups
    downs := t.downs
    authorlinkkarma := ""
    authorcommentkarma := ""
    authorisgold := "" }

/-- The `for (const child of children)` body of `fetchAllThreads`: push a
record, advance the cursor to the entry's `name`, count it, and break once
`fetched >= count`.  Returns the pushed records, the new `fetched`, and the
new cursor. -/
def processChildren (subreddit meta_ : String) (tok : String → List String)
    (count : ℕ) : List TChild → ℕ → Option String →
      List Thread × ℕ × Option String
  | [], fetched, after => ([], fetched, after)
  | c :: rest, fetched, after =>
    let th := mkThread subreddit meta_ tok c
    if count ≤ fetched + 1 then ([th], fetched + 1, some c.name)
    else
      let r := processChildren subreddit meta_ tok count rest (fetched + 1)
        (some c.name)
      (th :: r.1, r.2)

/-- The `while (fetched < count)` loop of `fetchAllThreads`.  `pageFetch`
models one paced page request from cursor and requested limit; `none` models
a failed request (the `catch` returns everything fetched so far).  The
second component logs the requested limits.  `fuel` bounds the iterations;
every continuing iteration fetches at least one entry, so `fuel = count`
never runs out. -/
def fetchLoop (pageFetch : Option String → ℕ → Option (List TChild))
    (subreddit meta_ : String) (tok : String → List String) (count : ℕ) :
    ℕ → ℕ → Option String → List Thread → List ℕ → List Thread × List ℕ
  | 0, _, _, acc, log => (acc, log)
  | fuel + 1, fetched, after, acc, log =>
    if fetched < count then
      let limit := min 100 (count - fetched)
      match pageFetch after limit with
      | none => (acc, log ++ [limit])
      | some children =>
        if children.isEmpty then (acc, log ++ [limit])
        else
          let r := processChildren subreddit meta_ tok count children fetched
            after
          if count ≤ r.2.1 then (acc ++ r.1, log ++ [limit])
          else if children.length < limit then (acc ++ r.1, log ++ [limit])
          else fetchLoop pageFetch subreddit meta_ tok count fuel r.2.1 r.2.2
            (acc ++ r.1) (log ++ [limit])
    else (acc, log)

/-- `fetchAllThreads(subreddit, meta, count, ...)`: walk the listing from an
empty cursor until `count` entries are fetched or the listing ends. -/
def fetchAllThreads (pageFetch : Option String → ℕ → Option (List TChild))
    (subreddit meta_ : String) (tok : String → List String) (count : ℕ) :
    List Thread × List ℕ :=
  fetchLoop pageFetch subreddit meta_ tok count count 0 none [] []

/-- A remote listing that returns a full page of 100 (identical) entries for
every request, regardless of the requested limit. -/
def fullPageFetch : Option String → ℕ → Option (List TChild) :=
  fun _ _ => some (List.replicate 100
    ⟨none, none, "", "", "", 0, "", 0, 0⟩)

theorem processChildren_fetched (subreddit meta_ : String)
    (tok : String → List String) (count : ℕ) :
    ∀ children fetched after,
      (processChildren subreddit meta_ tok count children fetched after).2.1 =
        fetched + (processChildren subreddit meta_ tok count children fetched
          after).1.length ∧
      (fetched < count →
        (processChildren subreddit meta_ tok count children fetched
          after).2.1 ≤ count) := by
  intro children
  induction children with
  | nil => intro fetched after; simp [processChildren]; omega
  | cons c rest ih =>
    intro fetched after
    simp only [processChildren]
    by_cases h : count ≤ fetched + 1
    · simp only [if_pos h]
      exact ⟨by simp, fun hlt => by omega⟩
    · simp only [if_neg h]
      have h2 := ih (fetched + 1) (some c.name)
      refine ⟨by simp [h2.1]; omega, fun hlt => h2.2 (by omega)⟩

theorem fetchLoop_length_le (pageFetch : Option String → ℕ → Option (List TChild))
    (subreddit meta_ : String) (tok : String → List String) (count : ℕ) :
    ∀ fuel fetched after acc log, acc.length = fetched → fetched ≤ count →
      ((fetchLoop pageFetch subreddit meta_ tok count fuel fetched after acc
        log).1).length ≤ count := by
  intro fuel
  induction fuel with
  | zero =>
    intro fetched after acc log hacc hle
    simpa [fetchLoop, hacc] using hle
  | succ n ih =>
    intro fetched after acc log hacc hle
    simp only [fetchLoop]
    by_cases hlt : fetched < count
    · simp only [if_pos hlt]
      cases hpf : pageFetch after (min 100 (count - fetched)) with
      | none => simpa [hacc] using hle
      | some children =>
        simp only
        by_cases hemp : children.isEmpty
        · simp only [if_pos hemp]; simpa [hacc] using hle
        · simp only [if_neg hemp]
          have hp := processChildren_fetched subreddit meta_ tok count
            children fetched after
          have hlen : (acc ++ (processChildren subreddit meta_ tok count
              children fetched after).1).length =
              (processChildren subreddit meta_ tok count children fetched
                after).2.1 := by
            simp [hacc, hp.1]
          have hbound := hp.2 hlt
          by_cases hc : count ≤ (processChildren subreddit meta_ tok count
              children fetched after).2.1
          · simp only [if_pos hc]
            omega
          · simp only [if_neg hc]
            by_cases hshort : children.length < min 100 (count - fetched)
            · simp only [if_pos hshort]; omega
            · simp only [if_neg hshort]
              exact ih _ _ _ _ hlen hbound
    · simp only [if_neg hlt]
      simpa [hacc] using hle

set_option maxRecDepth 20000 in
/-- C5: the paged listing fetcher never returns more than `targetCount`
items, truncating within an overshooting page; and for `targetCount = 250`
with the remote returning a full 100-item page on every request it issues
exactly 3 requests with limits 100, 100, 50 and returns exactly 250 items. -/
theorem fetchAllThreads_pagination :
    (∀ pageFetch subreddit meta_ tok count,
      ((fetchAllThreads pageFetch subreddit meta_ tok count).1).length ≤
        count) ∧
    ((fetchAllThreads fullPageFetch "r" "m" (fun _ => []) 250).1).length =
      250 ∧
    (fetchAllThreads fullPageFetch "r" "m" (fun _ => []) 250).2 =
      [100, 100, 50] := by
  refine ⟨fun pageFetch subreddit meta_ tok count => ?_, ?_, ?_⟩
  · exact fetchLoop_length_le pageFetch subreddit meta_ tok count count 0
      none [] [] rfl (Nat.zero_le count)
  · decide
  · decide

/-- A node of the nested reply structure as it appears on the wire:
`kind` (`"t1"` for a genuine reply, `"more"` for a load-more placeholder),
a possibly absent `data` object (`hasData`), the data fields read by
`extractComments`, and the possibly absent nested
`data.replies.data.children` list. -/
inductive RNode where
  | mk (kind : String) (hasData : Bool) (id : String) (body : Option String)
      (author : String) (created_utc : ℤ) (ups downs : ℤ)
      (replies : Option (List RNode))

/-- A comment record as pushed by `extractComments` in `fetchAllComments`.
The object literal in the source has no `parent_id` field; the field is kept
here as an `Option` (as the later tree assembly reads it dynamically) and is
always `none` for wire-extracted records. -/
structure RComment where
  text : String
  id : String
  subreddit : String
  meta : String
  time : ℤ
  author : String
  ups : ℤ
  downs : ℤ
  authorlinkkarma : String
  authorcommentkarma : String
  authorisgold : String
  parent_id : Option String
deriving Repr, DecidableEq

/-- The record pushed by `extractComments` for one accepted node. -/
def mkRComment (subreddit meta_ : String) (tok : String → List String)
    (id : String) (body : Option String) (author : String)
    (created_utc ups downs : ℤ) : RComment :=
  ⟨normalizeText tok body, id, subreddit, meta_, created_utc, author, ups,
    downs, "", "", "", none⟩

mutual
/-- One iteration of the `for (const c of commentArr)` body of
`extractComments`: skip the node (and its subtree) unless `c.data` is
present and `c.kind === 't1'`; otherwise push its record and recurse into
its nested replies when present.  `acc` is the outer mutable `comments`
array. -/
def extractNode (subreddit meta_ : String) (tok : String → List String)
    (acc : List RComment) : RNode → List RComment
  | RNode.mk kind hasData id body author created_utc ups downs replies =>
    if hasData ∧ kind = "t1" then
      let acc1 := acc ++
        [mkRComment subreddit meta_ tok id body author created_utc ups downs]
      match replies with
      | some children => extractList subreddit meta_ tok acc1 children
      | none => acc1
    else acc

/-- `extractComments(commentArr)` over a node list, threading the outer
`comments` array. -/
def extractList (subreddit meta_ : String) (tok : String → List String)
    (acc : List RComment) : List RNode → List RComment
  | [] => acc
  | n :: rest =>
    extractList subreddit meta_ tok (extractNode subreddit meta_ tok acc n)
      rest
end

mutual
/-- The flattening as worded by the spec: a node is accepted only if its
kind marks it a genuine reply; for each accepted node emit its record, then
recurse into its own nested replies, depth-first; placeholder nodes are
skipped (with their subtrees). -/
def flattenNode (subreddit meta_ : String) (tok : String → List String) :
    RNode → List RComment
  | RNode.mk kind hasData id body author created_utc ups downs replies =>
    if hasData ∧ kind = "t1" then
      mkRComment subreddit meta_ tok id body author created_utc ups downs ::
        (match replies with
          | some children => flattenList subreddit meta_ tok children
          | none => [])
    else []

/-- Depth-first flattening of a node list, as worded by the spec. -/
def flattenList (subreddit meta_ : String) (tok : String → List String) :
    List RNode → List RComment
  | [] => []
  | n :: rest =>
    flattenNode subreddit meta_ tok n ++ flattenList subreddit meta_ tok rest
end

theorem extractList_eq_flattenList (subreddit meta_ : String)
    (tok : String → List String) :
    ∀ acc l, extractList subreddit meta_ tok acc l =
      acc ++ flattenList subreddit meta_ tok l := by
  have c1 : ∀ (acc : List RComment) (kind : String) (hasData : Bool)
      (id : String) (body : Option String) (author : String)
      (created_utc ups downs : ℤ),
      hasData = true ∧ kind = "t1" →
      let acc1 := acc ++
        [mkRComment subreddit meta_ tok id body author created_utc ups downs]
      ∀ (children : List RNode),
        extractList subreddit meta_ tok acc1 children =
          acc1 ++ flattenList subreddit meta_ tok children →
        extractNode subreddit meta_ tok acc
          (RNode.mk kind hasData id body author created_utc ups downs
            (some children)) =
          acc ++ flattenNode subreddit meta_ tok
            (RNode.mk kind hasData id body author created_utc ups downs
              (some children)) := by
    intro acc kind hasData id body author created_utc ups downs h acc1
      children ih
    rw [extractNode.eq_def, flattenNode.eq_def]
    simp only [if_pos h]
    rw [show acc1 = acc ++
      [mkRComment subreddit meta_ tok id body author created_utc ups downs]
      from rfl] at ih
    simp [ih]
  have c2 : ∀ (acc : List RComment) (kind : String) (hasData : Bool)
      (id : String) (body : Option String) (author : String)
      (created_utc ups downs : ℤ),
      hasData = true ∧ kind = "t1" →
      extractNode subreddit meta_ tok acc
        (RNode.mk kind hasData id body author created_utc ups downs none) =
        acc ++ flattenNode subreddit meta_ tok
          (RNode.mk kind hasData id body author created_utc ups downs
            none) := by
    intro acc kind hasData id body author created_utc ups downs h
    rw [extractNode.eq_def, flattenNode.eq_def]
    simp [if_pos h]
  have c3 : ∀ (acc : List RComment) (kind : String) (hasData : Bool)
      (id : String) (body : Option String) (author : String)
      (created_utc ups downs : ℤ) (replies : Option (List RNode)),
      ¬(hasData = true ∧ kind = "t1") →
      extractNode subreddit meta_ tok acc
        (RNode.mk kind hasData id body author created_utc ups downs
          replies) =
        acc ++ flattenNode subreddit meta_ tok
          (RNode.mk kind hasData id body author created_utc ups downs
            replies) := by
    intro acc kind hasData id body author created_utc ups downs replies h
    rw [extractNode.eq_def, flattenNode.eq_def]
    simp [if_neg h]
  have c4 : ∀ (acc : List RComment),
      extractList subreddit meta_ tok acc [] =
        acc ++ flattenList subreddit meta_ tok [] := by
    intro acc
    rw [extractList.eq_def, flattenList.eq_def]
    simp
  have c5 : ∀ (acc : List RComment) (n : RNode) (rest : List RNode),
      extractNode subreddit meta_ tok acc n =
        acc ++ flattenNode subreddit meta_ tok n →
      extractList subreddit meta_ tok (extractNode subreddit meta_ tok acc n)
        rest = extractNode subreddit meta_ tok acc n ++
          flattenList subreddit meta_ tok rest →
      extractList subreddit meta_ tok acc (n :: rest) =
        acc ++ flattenList subreddit meta_ tok (n :: rest) := by
    intro acc n rest ih1 ih2
    rw [extractList.eq_def, flattenList.eq_def]
    simp only []
    rw [ih2, ih1]
    simp
  exact extractList.induct subreddit meta_ tok
    (fun acc n => extractNode subreddit meta_ tok acc n =
      acc ++ flattenNode subreddit meta_ tok n)
    (fun acc l => extractList subreddit meta_ tok acc l =
      acc ++ flattenList subreddit meta_ tok l)
    c1 c2 c3 c4 c5

/-- C9: the reply-tree flattening emits one record per accepted (`t1`,
data-carrying) node, skips placeholder nodes silently (together with their
subtrees), and produces the depth-first flattening in which each accepted
node's record precedes the records of its own nested replies. -/
theorem extractComments_flattens (subreddit meta_ : String)
    (tok : String → List String) (kind : String) (hasData : Bool)
    (id : String) (body : Option String) (author : String)
    (created_utc ups downs : ℤ) (children rest : List RNode)
    (hacc : hasData ∧ kind = "t1") :
    (∀ l, extractList subreddit meta_ tok [] l =
      flattenList subreddit meta_ tok l) ∧
    extractList subreddit meta_ tok []
        (RNode.mk kind hasData id body author created_utc ups downs
          (some children) :: rest) =
      mkRComment subreddit meta_ tok id body author created_utc ups downs ::
        (flattenList subreddit meta_ tok children ++
          flattenList subreddit meta_ tok rest) ∧
    (∀ (kind2 : String) (hasData2 : Bool) (id2 : String)
      (body2 : Option String) (author2 : String) (created2 ups2 downs2 : ℤ)
      (replies2 : Option (List RNode)),
      ¬ (hasData2 ∧ kind2 = "t1") →
      extractList subreddit meta_ tok []
          (RNode.mk kind2 hasData2 id2 body2 author2 created2 ups2 downs2
            replies2 :: rest) =
        flattenList subreddit meta_ tok rest) := by
  refine ⟨fun l => ?_, ?_, ?_⟩
  · simpa using extractList_eq_flattenList subreddit meta_ tok [] l
  · rw [extractList_eq_flattenList]
    rw [show flattenList subreddit meta_ tok
      (RNode.mk kind hasData id body author created_utc ups downs
        (some children) :: rest) =
      flattenNode subreddit meta_ tok
        (RNode.mk kind hasData id body author created_utc ups downs
          (some children)) ++ flattenList subreddit meta_ tok rest
      from by rw [flattenList.eq_def]]
    rw [flattenNode.eq_def]
    simp [if_pos hacc]
  · intro kind2 hasData2 id2 body2 author2 created2 ups2 downs2 replies2 hneg
    rw [extractList_eq_flattenList]
    rw [show flattenList subreddit meta_ tok
      (RNode.mk kind2 hasData2 id2 body2 author2 created2 ups2 downs2
        replies2 :: rest) =
      flattenNode subreddit meta_ tok
        (RNode.mk kind2 hasData2 id2 body2 author2 created2 ups2 downs2
          replies2) ++ flattenList subreddit meta_ tok rest
      from by rw [flattenList.eq_def]]
    rw [flattenNode.eq_def]
    simp [if_neg hneg]

/-- C9, witness: a concrete two-level tree with a placeholder node is
flattened depth-first with the parent record first and the placeholder
dropped. -/
theorem extractComments_flattens_witness :
    ((true ∧ "t1" = "t1") ∧
    extractList "s" "m" (fun _ => ["w"]) []
        [RNode.mk "t1" true "c1" (some "B") "a" 0 1 0
          (some [RNode.mk "t1" true "c2" none "b" 0 2 0 none,
            RNode.mk "more" true "c3" none "" 0 0 0 none])] =
      [mkRComment "s" "m" (fun _ => ["w"]) "c1" (some "B") "a" 0 1 0,
        mkRComment "s" "m" (fun _ => ["w"]) "c2" none "b" 0 2 0]) := by
  refine ⟨⟨rfl, rfl⟩, ?_⟩
  rw [(extractComments_flattens "s" "m" (fun _ => ["w"]) "t1" true "c1"
    (some "B") "a" 0 1 0
    [RNode.mk "t1" true "c2" none "b" 0 2 0 none,
      RNode.mk "more" true "c3" none "" 0 0 0 none] []
    ⟨rfl, rfl⟩).2.1]
  simp only [flattenList, flattenNode]
  decide

/-- The result recorded for one parent item by the `pMap` callback in
`main`: on success the fetched reply sequence, on failure (the `catch`
branch) the pair of the item with an empty reply sequence.  `res` is the
outcome of `fetchAllComments` for this thread. -/
def perThreadResult (thread : Thread)
    (res : Except String (List RComment)) : Thread × List RComment :=
  match res with
  | .ok comments => (thread, comments)
  | .error _ => (thread, [])

/-- Modelled from the spec: the BoundedScheduler (`pMap`, an external
dependency) runs the per-item callback over all parent items with bounded
concurrency, completing with one result per input item in input order; its
functional result is that of an order-preserving map. -/
def runBatch (threads : List Thread)
    (fetchResult : Thread → Except String (List RComment)) :
    List (Thread × List RComment) :=
  threads.map fun t => perThreadResult t (fetchResult t)

/-- C8: the batch always completes with one result per input item; an item
whose fetch fails is recorded as the pair of the item with an empty reply
sequence, and every other item's result is exactly its own fetch result. -/
theorem runBatch_isolates_failures (threads : List Thread)
    (fetchResult : Thread → Except String (List RComment)) :
    (runBatch threads fetchResult).length = threads.length ∧
    ∀ i (h : i < threads.length)
      (h2 : i < (runBatch threads fetchResult).length),
      ((runBatch threads fetchResult).get ⟨i, h2⟩).1 = threads.get ⟨i, h⟩ ∧
      (∀ e, fetchResult (threads.get ⟨i, h⟩) = .error e →
        ((runBatch threads fetchResult).get ⟨i, h2⟩).2 = []) ∧
      (∀ cs, fetchResult (threads.get ⟨i, h⟩) = .ok cs →
        ((runBatch threads fetchResult).get ⟨i, h2⟩).2 = cs) := by
  refine ⟨by simp [runBatch], fun i h h2 => ?_⟩
  have hg : (runBatch threads fetchResult).get ⟨i, h2⟩ =
      perThreadResult (threads.get ⟨i, h⟩)
        (fetchResult (threads.get ⟨i, h⟩)) := by
    simp [runBatch]
  refine ⟨?_, fun e he => ?_, fun cs hc => ?_⟩
  · rw [hg]; cases hr : fetchResult (threads.get ⟨i, h⟩) <;>
      simp [perThreadResult, hr]
  · rw [hg, he]; simp [perThreadResult]
  · rw [hg, hc]; simp [perThreadResult]

/-- A batch of three concrete parent items for the C8 witness. -/
def demoThreads : List Thread :=
  [⟨"", "", "", "a", "s", "m", 0, "", 0, 0, "", "", ""⟩,
    ⟨"", "", "", "b", "s", "m", 0, "", 0, 0, "", "", ""⟩,
    ⟨"", "", "", "c", "s", "m", 0, "", 0, 0, "", "", ""⟩]

/-- A fetch oracle failing exactly on the middle item of `demoThreads`. -/
def demoFetch : Thread → Except String (List RComment) :=
  fun t => if t.id = "b" then .error "boom"
    else .ok [mkRComment "s" "m" (fun _ => []) t.id none "" 0 0 0]

/-- C8, witness: in a concrete three-item batch whose middle fetch fails,
the batch returns three results, the failing item is paired with the empty
sequence, and the other items keep their own results. -/
theorem runBatch_isolates_failures_witness :
    (runBatch demoThreads demoFetch).length = 3 ∧
    ((runBatch demoThreads demoFetch).get ⟨1, by decide⟩).2 = [] ∧
    ((runBatch demoThreads demoFetch).get ⟨0, by decide⟩).2 =
      [mkRComment "s" "m" (fun _ => []) "a" none "" 0 0 0] := by
  have h := runBatch_isolates_failures demoThreads demoFetch
  refine ⟨h.1.trans rfl, ?_, ?_⟩
  · exact (h.2 1 (by decide) (by decide)).2.1 "boom" rfl
  · exact (h.2 0 (by decide) (by decide)).2.2 _ rfl

/-- The key set of the pass-1 `commentsMap` of the tree assembly in `main`
(one key per record id). -/
def commentIds (comments : List RComment) : List String :=
  comments.map fun c => c.id

/-- One iteration of the second `comments.forEach` of the tree assembly,
over the flat link state `(edges, topLevel)`: look up the record's own node
(always present once pass 1 ran — the guard mirrors `if (!commentObj)
return`); if the record's `parent_id` is truthy and among the map keys,
attach its node to the parent (`parent.replies.push`), recorded as the edge
`(parent_id, id)`; otherwise push the node onto `topLevelComments`.  Nodes
are identified by their ids, as the `Map` in the source keys them. -/
def linkStep (u : List String) (st : List (String × String) × List String)
    (c : RComment) : List (String × String) × List String :=
  if c.id ∈ u then
    match c.parent_id with
    | some p =>
      if p ≠ "" ∧ p ∈ u then (st.1 ++ [(p, c.id)], st.2)
      else (st.1, st.2 ++ [c.id])
    | none => (st.1, st.2 ++ [c.id])
  else st

/-- The second `comments.forEach` folded over a record list with a fixed
key set `u`. -/
def assembleAux (u : List String) (comments : List RComment) :
    List (String × String) × List String :=
  comments.foldl (linkStep u) ([], [])

/-- The tree assembly's link structure for a thread's comment list:
parent/child edges in push order and the `topLevelComments` ids. -/
def assembleLinks (comments : List RComment) :
    List (String × String) × List String :=
  assembleAux (commentIds comments) comments

/-- The `replies` array of the node `i`, read off the recorded edges in
push order. -/
def childIds (edges : List (String × String)) (i : String) : List String :=
  (edges.filter fun e => e.1 == i).map fun e => e.2

/-- A comment node of the assembled forest: the record id and the nested
`replies`. -/
inductive CNode where
  | mk (id : String) (children : List CNode)

/-- Materialisation of the node `i` of the assembled object graph, reading
`replies` recursively; `fuel` bounds the unfolding depth (the graph is
finite and acyclic under the theorems' hypotheses, and
`fuel = comments.length` is proven sufficient). -/
def buildNode (edges : List (String × String)) : ℕ → String → CNode
  | 0, i => CNode.mk i []
  | fuel + 1, i => CNode.mk i ((childIds edges i).map (buildNode edges fuel))

/-- The assembled forest of a thread: one materialised tree per
`topLevelComments` entry. -/
def buildForest (comments : List RComment) : List CNode :=
  (assembleLinks comments).2.map
    (buildNode (assembleLinks comments).1 comments.length)

mutual
/-- Preorder id listing of one comment node. -/
def flattenTree : CNode → List String
  | CNode.mk i children => i :: flattenForest children

/-- Preorder id listing of a forest. -/
def flattenForest : List CNode → List String
  | [] => []
  | n :: rest => flattenTree n ++ flattenForest rest
end

/-- Total node count across a forest. -/
def forestNodeCount (forest : List CNode) : ℕ :=
  (flattenForest forest).length

theorem mem_childIds (edges : List (String × String)) (i j : String) :
    j ∈ childIds edges i ↔ (i, j) ∈ edges := by
  simp only [childIds, List.mem_map, List.mem_filter, beq_iff_eq]
  constructor
  · rintro ⟨⟨a, b⟩, ⟨hmem, h1⟩, h2⟩
    simp only at h1 h2
    rw [h1, h2] at hmem
    exact hmem
  · intro h
    exact ⟨(i, j), ⟨h, rfl⟩, rfl⟩

theorem childIds_append (edges : List (String × String)) (p c i : String) :
    childIds (edges ++ [(p, c)]) i =
      childIds edges i ++ (if p = i then [c] else []) := by
  simp only [childIds, List.filter_append, List.map_append]
  by_cases h : p = i <;> simp [h]

theorem childIds_eq_nil (edges : List (String × String)) (c : String)
    (h : ∀ e ∈ edges, e.1 ≠ c) : childIds edges c = [] := by
  have : edges.filter (fun e => e.1 == c) = [] := by
    rw [List.filter_eq_nil_iff]
    intro e he
    simpa using h e he
  simp [childIds, this]

theorem flattenForest_append (a b : List CNode) :
    flattenForest (a ++ b) = flattenForest a ++ flattenForest b := by
  induction a with
  | nil => simp [flattenForest]
  | cons n rest ih =>
    rw [List.cons_append]
    simp only [flattenForest]
    rw [ih, List.append_assoc]

theorem flattenTree_leaf (edges : List (String × String)) (i : String)
    (h : childIds edges i = []) :
    ∀ fuel, flattenTree (buildNode edges fuel i) = [i] := by
  intro fuel
  cases fuel with
  | zero => simp [buildNode, flattenTree, flattenForest]
  | succ f => simp [buildNode, h, flattenTree, flattenForest]

theorem count_flattenForest_map (g : String → CNode) (x : String) :
    ∀ l : List String, List.count x (flattenForest (l.map g)) =
      (l.map fun j => List.count x (flattenTree (g j))).sum := by
  intro l
  induction l with
  | nil => simp [flattenForest]
  | cons a rest ih =>
    simp only [List.map_cons, flattenForest]
    simp [List.count_append, ih]

theorem sum_map_add (l : List String) (a b : String → ℕ) :
    (l.map fun j => a j + b j).sum = (l.map a).sum + (l.map b).sum := by
  induction l with
  | nil => simp
  | cons x rest ih => simp [ih]; omega

theorem buildNode_zero (edges : List (String × String)) (i : String) :
    buildNode edges 0 i = CNode.mk i [] := rfl

theorem buildNode_succ (edges : List (String × String)) (f : ℕ)
    (i : String) :
    buildNode edges (f + 1) i =
      CNode.mk i ((childIds edges i).map (buildNode edges f)) := rfl

theorem flattenTree_mk (i : String) (l : List CNode) :
    flattenTree (CNode.mk i l) = i :: flattenForest l := by
  simp [flattenTree]

theorem flattenForest_singleton (n : CNode) :
    flattenForest [n] = flattenTree n := by
  simp [flattenForest]

theorem count_buildNode_addEdge_ne (edges : List (String × String))
    (p c : String) (hfresh : ∀ e ∈ edges, e.1 ≠ c) (hpc : p ≠ c) :
    ∀ fuel i x, x ≠ c →
      List.count x (flattenTree (buildNode (edges ++ [(p, c)]) fuel i)) =
        List.count x (flattenTree (buildNode edges fuel i)) := by
  intro fuel
  induction fuel with
  | zero => intro i x hx; rfl
  | succ f ih =>
    intro i x hx
    rw [buildNode_succ, buildNode_succ, flattenTree_mk, flattenTree_mk,
      List.count_cons, List.count_cons, childIds_append]
    by_cases hip : p = i
    · rw [if_pos hip, List.map_append, flattenForest_append,
        List.count_append]
      have hcnil : childIds (edges ++ [(p, c)]) c = [] := by
        refine childIds_eq_nil _ _ ?_
        intro e he
        rcases List.mem_append.mp he with h | h
        · exact hfresh e h
        · simp only [List.mem_singleton] at h
          rw [h]
          exact hpc
      rw [List.map_cons, List.map_nil]
      rw [show flattenForest [buildNode (edges ++ [(p, c)]) f c] = [c] from by
        rw [flattenForest_singleton]
        exact flattenTree_leaf _ _ hcnil f]
      have hc0 : List.count x [c] = 0 := by
        simp [List.count_singleton, Ne.symm hx]
      rw [hc0, count_flattenForest_map, count_flattenForest_map,
        List.map_congr_left fun j _ => ih j x hx]
      omega
    · rw [if_neg hip, List.append_nil, count_flattenForest_map,
        count_flattenForest_map, List.map_congr_left fun j _ => ih j x hx]

theorem count_buildNode_addEdge_eq (rank : String → ℕ)
    (edges : List (String × String)) (p c : String)
    (hgr : ∀ e ∈ edges, rank e.1 < rank e.2)
    (hfresh : ∀ e ∈ edges, e.1 ≠ c) (hpc : p ≠ c) :
    ∀ fuel i, rank p < rank i + fuel →
      List.count c (flattenTree (buildNode (edges ++ [(p, c)]) fuel i)) =
        List.count c (flattenTree (buildNode edges fuel i)) +
        List.count p (flattenTree (buildNode edges fuel i)) := by
  intro fuel
  induction fuel with
  | zero =>
    intro i hri
    have hpi : i ≠ p := by
      intro he
      rw [he] at hri
      omega
    simp only [buildNode_zero, flattenTree_mk]
    rw [show flattenForest ([] : List CNode) = [] from by
      simp [flattenForest]]
    simp [List.count_singleton, hpi]
  | succ f ih =>
    intro i hri
    have hchild : ∀ j ∈ childIds edges i, rank p < rank j + f := by
      intro j hj
      have hedge : (i, j) ∈ edges := (mem_childIds edges i j).mp hj
      have hij := hgr (i, j) hedge
      simp only at hij
      omega
    simp only [buildNode_succ, flattenTree_mk, List.count_cons]
    rw [childIds_append]
    by_cases hip : p = i
    · rw [if_pos hip, List.map_append, flattenForest_append,
        List.count_append, List.map_cons, List.map_nil]
      have hcnil : childIds (edges ++ [(p, c)]) c = [] := by
        refine childIds_eq_nil _ _ ?_
        intro e he
        rcases List.mem_append.mp he with h | h
        · exact hfresh e h
        · simp only [List.mem_singleton] at h
          rw [h]
          exact hpc
      rw [show flattenForest [buildNode (edges ++ [(p, c)]) f c] = [c] from by
        rw [flattenForest_singleton]
        exact flattenTree_leaf _ _ hcnil f]
      have hc1 : List.count c [c] = 1 := by simp
      rw [hc1]
      simp only [count_flattenForest_map]
      rw [List.map_congr_left fun j hj => ih j (hchild j hj), sum_map_add]
      have hic : (i == c) = false := by
        rw [hip] at hpc
        simp [hpc]
      have hipb : (i == p) = true := by
        rw [hip]
        simp
      rw [hic, hipb]
      simp only [if_true, if_false]
      omega
    · rw [if_neg hip, List.append_nil]
      simp only [count_flattenForest_map]
      rw [List.map_congr_left fun j hj => ih j (hchild j hj), sum_map_add]
      have hipn : i ≠ p := fun h => hip h.symm
      have hipb : (i == p) = false := by simp [hipn]
      rw [hipb]
      simp only [Bool.false_eq_true, if_false]
      omega

theorem assemble_count_aux (comments : List RComment)
    (hnodup : (commentIds comments).Nodup)
    (hparents : ∀ k (hk : k < comments.length) p,
      (comments.get ⟨k, hk⟩).parent_id = some p → p ≠ "" →
      p ∈ commentIds comments →
      ∃ j, ∃ hj : j < comments.length, j < k ∧
        (comments.get ⟨j, hj⟩).id = p) :
    ∀ n, n ≤ comments.length →
      (∀ x, List.count x (flattenForest
          (((assembleAux (commentIds comments) (comments.take n)).2).map
            (buildNode (assembleAux (commentIds comments)
              (comments.take n)).1 comments.length))) =
        List.count x (commentIds (comments.take n))) ∧
      (∀ e ∈ (assembleAux (commentIds comments) (comments.take n)).1,
        (commentIds comments).indexOf e.1 <
          (commentIds comments).indexOf e.2 ∧
        e.1 ∈ commentIds (comments.take n) ∧
        e.2 ∈ commentIds (comments.take n)) := by
  intro n
  induction n with
  | zero =>
    intro _
    constructor
    · intro x
      simp [assembleAux, commentIds, flattenForest]
    · intro e he
      simp [assembleAux] at he
  | succ n ih =>
    intro hn1
    have hn : n < comments.length := hn1
    obtain ⟨ihc, ihe⟩ := ih (Nat.le_of_lt hn)
    have hulen : (commentIds comments).length = comments.length := by
      simp [commentIds]
    have hun : n < (commentIds comments).length := by omega
    have hidsn : (commentIds comments)[n] = (comments.get ⟨n, hn⟩).id := by
      simp [commentIds, List.getElem_map, List.get_eq_getElem]
    have htake : comments.take (n + 1) =
        comments.take n ++ [comments.get ⟨n, hn⟩] := by
      rw [List.take_succ, List.getElem?_eq_getElem hn]
      simp [List.get_eq_getElem]
    have hids_take : ∀ m, commentIds (comments.take m) =
        (commentIds comments).take m := by
      intro m
      simp [commentIds, List.map_take]
    have hids_take1 : commentIds (comments.take (n + 1)) =
        commentIds (comments.take n) ++ [(comments.get ⟨n, hn⟩).id] := by
      rw [htake]
      simp only [commentIds, List.map_append, List.map_cons, List.map_nil]
    have hmemu : (comments.get ⟨n, hn⟩).id ∈ commentIds comments := by
      rw [← hidsn]
      exact List.getElem_mem hun
    have hcid_rank : (commentIds comments).indexOf
        ((comments.get ⟨n, hn⟩).id) = n := by
      rw [← hidsn]
      exact List.indexOf_getElem hnodup n hun
    have hcid_notin : (comments.get ⟨n, hn⟩).id ∉
        commentIds (comments.take n) := by
      rw [hids_take]
      intro hmem
      obtain ⟨i, hi, hieq⟩ := List.mem_take_iff_getElem.mp hmem
      have hilt : i < n := lt_of_lt_of_le hi (min_le_left _ _)
      have hiu : i < (commentIds comments).length :=
        lt_of_lt_of_le hi (min_le_right _ _)
      rw [← hidsn] at hieq
      have := (@List.Nodup.getElem_inj_iff _ _ hnodup i hiu n hun).mp hieq
      omega
    have hfresh1 : ∀ e ∈ (assembleAux (commentIds comments)
        (comments.take n)).1, e.1 ≠ (comments.get ⟨n, hn⟩).id := by
      intro e he heq
      exact hcid_notin (heq ▸ (ihe e he).2.1)
    have hfoldstep : assembleAux (commentIds comments)
        (comments.take (n + 1)) =
        linkStep (commentIds comments)
          (assembleAux (commentIds comments) (comments.take n))
          (comments.get ⟨n, hn⟩) := by
      rw [htake]
      exact List.foldl_concat _ _ _ _
    cases hpid : (comments.get ⟨n, hn⟩).parent_id with
    | none =>
      have hstep : assembleAux (commentIds comments)
          (comments.take (n + 1)) =
          ((assembleAux (commentIds comments) (comments.take n)).1,
            (assembleAux (commentIds comments) (comments.take n)).2 ++
              [(comments.get ⟨n, hn⟩).id]) := by
        rw [hfoldstep]
        simp only [linkStep, hpid, if_pos hmemu]
      rw [hstep]
      constructor
      · intro x
        simp only
        rw [List.map_append, flattenForest_append, List.count_append,
          List.map_cons, List.map_nil]
        rw [show flattenForest [buildNode (assembleAux (commentIds comments)
            (comments.take n)).1 comments.length
            ((comments.get ⟨n, hn⟩).id)] =
            [(comments.get ⟨n, hn⟩).id] from by
          rw [flattenForest_singleton]
          exact flattenTree_leaf _ _ (childIds_eq_nil _ _ hfresh1) _]
        rw [hids_take1, List.count_append, ihc x]
      · intro e he
        simp only at he
        obtain ⟨h1, h2, h3⟩ := ihe e he
        exact ⟨h1, hids_take1 ▸ List.mem_append_left _ h2,
          hids_take1 ▸ List.mem_append_left _ h3⟩
    | some p =>
      by_cases hcond : p ≠ "" ∧ p ∈ commentIds comments
      · -- the record is attached under its parent node
        obtain ⟨j, hj, hjn, hjid⟩ :=
          hparents n hn p hpid hcond.1 hcond.2
        have hju : j < (commentIds comments).length := by omega
        have hpj : (commentIds comments)[j] = p := by
          simpa [commentIds, List.getElem_map, List.get_eq_getElem]
            using congrArg (fun s => s) hjid
        have hprank : (commentIds comments).indexOf p = j := by
          rw [← hpj]
          exact List.indexOf_getElem hnodup j hju
        have hp_in_take : p ∈ commentIds (comments.take n) := by
          rw [hids_take]
          exact List.mem_take_iff_getElem.mpr
            ⟨j, lt_min hjn hju, hpj⟩
        have hpc : p ≠ (comments.get ⟨n, hn⟩).id := by
          intro heq
          exact hcid_notin (heq ▸ hp_in_take)
        have hnodup_take : (commentIds (comments.take n)).Nodup := by
          rw [hids_take]
          exact (List.take_sublist _ _).nodup hnodup
        have hcount_p : List.count p (commentIds (comments.take n)) = 1 :=
          List.count_eq_one_of_mem hnodup_take hp_in_take
        have hgr : ∀ e ∈ (assembleAux (commentIds comments)
            (comments.take n)).1,
            (commentIds comments).indexOf e.1 <
              (commentIds comments).indexOf e.2 :=
          fun e he => (ihe e he).1
        have hstep : assembleAux (commentIds comments)
            (comments.take (n + 1)) =
            ((assembleAux (commentIds comments) (comments.take n)).1 ++
              [(p, (comments.get ⟨n, hn⟩).id)],
              (assembleAux (commentIds comments) (comments.take n)).2) := by
          rw [hfoldstep]
          simp only [linkStep, hpid, if_pos hmemu, if_pos hcond]
        rw [hstep]
        constructor
        · intro x
          simp only
          rw [count_flattenForest_map, hids_take1, List.count_append]
          by_cases hx : x = (comments.get ⟨n, hn⟩).id
          · subst hx
            rw [List.map_congr_left fun r _ =>
              count_buildNode_addEdge_eq
                (fun s => (commentIds comments).indexOf s) _ _ _ hgr hfresh1
                hpc comments.length r (by
                  show List.indexOf p (commentIds comments) <
                    List.indexOf r (commentIds comments) + comments.length
                  rw [hprank]
                  omega)]
            rw [sum_map_add]
            rw [show ((assembleAux (commentIds comments)
                (comments.take n)).2.map fun j => List.count
                  ((comments.get ⟨n, hn⟩).id)
                  (flattenTree (buildNode (assembleAux (commentIds comments)
                    (comments.take n)).1 comments.length j))).sum =
              List.count ((comments.get ⟨n, hn⟩).id)
                (commentIds (comments.take n)) from by
                rw [← count_flattenForest_map]
                exact ihc _]
            rw [show ((assembleAux (commentIds comments)
                (comments.take n)).2.map fun j => List.count p
                  (flattenTree (buildNode (assembleAux (commentIds comments)
                    (comments.take n)).1 comments.length j))).sum =
              List.count p (commentIds (comments.take n)) from by
                rw [← count_flattenForest_map]
                exact ihc p]
            rw [hcount_p]
            simp
          · rw [List.map_congr_left fun r _ =>
              count_buildNode_addEdge_ne _ _ _ hfresh1 hpc
                comments.length r x hx]
            rw [← count_flattenForest_map, ihc x]
            have hx2 : ¬comments[n].id = x := by
              intro h
              exact hx (by rw [List.get_eq_getElem]; exact h.symm)
            have hz : List.count x [(comments.get ⟨n, hn⟩).id] = 0 := by
              simp [List.count_singleton, beq_iff_eq, List.get_eq_getElem,
                hx2]
            rw [hz]
            omega
        · intro e he
          simp only at he
          rcases List.mem_append.mp he with hmem | hmem
          · obtain ⟨h1, h2, h3⟩ := ihe e hmem
            exact ⟨h1, hids_take1 ▸ List.mem_append_left _ h2,
              hids_take1 ▸ List.mem_append_left _ h3⟩
          · simp only [List.mem_singleton] at hmem
            subst hmem
            refine ⟨?_, ?_, ?_⟩
            · simp only
              rw [hprank, hcid_rank]
              omega
            · exact hids_take1 ▸ List.mem_append_left _ hp_in_take
            · refine hids_take1 ▸ List.mem_append_right _ ?_
              simp
      · -- parent reference absent from the map: top-level
        have hstep : assembleAux (commentIds comments)
            (comments.take (n + 1)) =
            ((assembleAux (commentIds comments) (comments.take n)).1,
              (assembleAux (commentIds comments) (comments.take n)).2 ++
                [(comments.get ⟨n, hn⟩).id]) := by
          rw [hfoldstep]
          simp only [linkStep, hpid, if_pos hmemu, if_neg hcond]
        rw [hstep]
        constructor
        · intro x
          simp only
          rw [List.map_append, flattenForest_append, List.count_append,
            List.map_cons, List.map_nil]
          rw [show flattenForest [buildNode (assembleAux
              (commentIds comments) (comments.take n)).1 comments.length
              ((comments.get ⟨n, hn⟩).id)] =
              [(comments.get ⟨n, hn⟩).id] from by
            rw [flattenForest_singleton]
            exact flattenTree_leaf _ _ (childIds_eq_nil _ _ hfresh1) _]
          rw [hids_take1, List.count_append, ihc x]
        · intro e he
          simp only at he
          obtain ⟨h1, h2, h3⟩ := ihe e he
          exact ⟨h1, hids_take1 ▸ List.mem_append_left _ h2,
            hids_take1 ▸ List.mem_append_left _ h3⟩

/-- C1: for a record list with pairwise-distinct ids in which every truthy
`parentId` matching a map key references a record appearing earlier in the
list (as the depth-first reply flattener produces them), the assembled
forest contains every record exactly once: its preorder id listing is a
permutation of the record ids, and the total node count equals the number
of records. -/
theorem buildForest_preserves_records (comments : List RComment)
    (hnodup : (commentIds comments).Nodup)
    (hparents : ∀ k (hk : k < comments.length) p,
      (comments.get ⟨k, hk⟩).parent_id = some p → p ≠ "" →
      p ∈ commentIds comments →
      ∃ j, ∃ hj : j < comments.length, j < k ∧
        (comments.get ⟨j, hj⟩).id = p) :
    (flattenForest (buildForest comments)).Perm (commentIds comments) ∧
    forestNodeCount (buildForest comments) = comments.length := by
  have h := (assemble_count_aux comments hnodup hparents comments.length
    (le_refl _)).1
  rw [List.take_length] at h
  have hperm : (flattenForest (buildForest comments)).Perm
      (commentIds comments) := by
    rw [List.perm_iff_count]
    intro a
    simpa [buildForest, assembleLinks] using h a
  refine ⟨hperm, ?_⟩
  have hlen := hperm.length_eq
  simpa [forestNodeCount, commentIds] using hlen

/-- Five records for thread `T1`: three without `parentId` and two
referencing two of the other three, as in the spec's TreeBuilder example. -/
def demo5 : List RComment :=
  [⟨"", "r1", "s", "m", 0, "", 0, 0, "", "", "", none⟩,
    ⟨"", "r2", "s", "m", 0, "", 0, 0, "", "", "", none⟩,
    ⟨"", "r3", "s", "m", 0, "", 0, 0, "", "", "", none⟩,
    ⟨"", "d1", "s", "m", 0, "", 0, 0, "", "", "", some "r1"⟩,
    ⟨"", "d2", "s", "m", 0, "", 0, 0, "", "", "", some "r2"⟩]

/-- C1, witness: on the five-record example, the forest has exactly 3
top-level nodes, the two linked records appear as children, and the total
node count is 5. -/
theorem buildForest_preserves_records_witness :
    (commentIds demo5).Nodup ∧
    forestNodeCount (buildForest demo5) = 5 ∧
    (assembleLinks demo5).2 = ["r1", "r2", "r3"] ∧
    childIds (assembleLinks demo5).1 "r1" = ["d1"] ∧
    childIds (assembleLinks demo5).1 "r2" = ["d2"] := by
  have hpar : ∀ k (hk : k < demo5.length) p,
      (demo5.get ⟨k, hk⟩).parent_id = some p → p ≠ "" →
      p ∈ commentIds demo5 →
      ∃ j, ∃ hj : j < demo5.length, j < k ∧
        (demo5.get ⟨j, hj⟩).id = p := by
    intro k hk p hp hne hmem
    have hk5 : k < 5 := hk
    interval_cases k
    · simp [demo5] at hp
    · simp [demo5] at hp
    · simp [demo5] at hp
    · have hpr : p = "r1" := by
        have h3 : (demo5.get ⟨3, hk⟩).parent_id = some "r1" := rfl
        rw [h3] at hp
        exact (Option.some_inj.mp hp).symm
      subst hpr
      exact ⟨0, by norm_num [demo5], by norm_num, rfl⟩
    · have hpr : p = "r2" := by
        have h4 : (demo5.get ⟨4, hk⟩).parent_id = some "r2" := rfl
        rw [h4] at hp
        exact (Option.some_inj.mp hp).symm
      subst hpr
      exact ⟨1, by norm_num [demo5], by norm_num, rfl⟩
  have h := buildForest_preserves_records demo5 (by decide) hpar
  exact ⟨by decide, h.2, by decide, by decide, by decide⟩

/-- A tokenizer stub for the concrete wire-tree evaluations. -/
def c4Tok : String → List String := fun _ => ["w"]

/-- A wire reply tree for thread `T1` in the observed shape: reply `c1`
contains the nested reply `c2`. -/
def c4WireTree : List RNode :=
  [RNode.mk "t1" true "c1" (some "B") "a" 0 1 0
    (some [RNode.mk "t1" true "c2" (some "C") "b" 0 2 0 none])]

/-- C4, behaviour at the failing input: the flattener emits both records
with `parent_id` absent, and the tree assembly then marks both as
top-level — the nested reply `c2` does not become a child of `c1`'s node
(`c1` has no children), so reply-tree position is not reconstructed. -/
theorem nestedReply_assembled_topLevel :
    extractList "s" "m" c4Tok [] c4WireTree =
      [mkRComment "s" "m" c4Tok "c1" (some "B") "a" 0 1 0,
        mkRComment "s" "m" c4Tok "c2" (some "C") "b" 0 2 0] ∧
    (mkRComment "s" "m" c4Tok "c1" (some "B") "a" 0 1 0).parent_id = none ∧
    (mkRComment "s" "m" c4Tok "c2" (some "C") "b" 0 2 0).parent_id = none ∧
    (assembleLinks [mkRComment "s" "m" c4Tok "c1" (some "B") "a" 0 1 0,
      mkRComment "s" "m" c4Tok "c2" (some "C") "b" 0 2 0]).2 =
      ["c1", "c2"] ∧
    childIds (assembleLinks [mkRComment "s" "m" c4Tok "c1" (some "B") "a" 0
      1 0, mkRComment "s" "m" c4Tok "c2" (some "C") "b" 0 2 0]).1 "c1" =
      [] := by
  refine ⟨?_, rfl, rfl, by decide, by decide⟩
  rw [extractList_eq_flattenList]
  simp only [flattenList, flattenNode]
  decide

/-- Backoff waits as worded by the spec: `baseDelay` before the first retry,
doubled after each retry, for the given number of throttled attempts. -/
def doublingWaits (delay : ℤ) : ℕ → List ℤ
  | 0 => []
  | n + 1 => delay :: doublingWaits (delay * 2) n

/-- A response source on which every attempt is throttled (HTTP 429) with no
quota headers. -/
def throttled429 : ℕ → Resp := fun _ => ⟨429, none, none⟩

theorem rlLoop_all429 (minDelay highDelay : ℤ) (resp : ℕ → Resp)
    (h : ∀ n, (resp n).status = 429) :
    ∀ fuel attempt delay, rlLoop minDelay highDelay resp fuel attempt delay =
      (doublingWaits delay fuel, none) := by
  intro fuel
  induction fuel with
  | zero => intro attempt delay; rfl
  | succ n ih =>
    intro attempt delay
    simp only [rlLoop, if_pos (h attempt), ih (attempt + 1) (delay * 2), doublingWaits]

/- ## Claim theorems: quota pacing, backoff, work estimator, normalizer -/

/-- C2, counterexample: at `remaining = 2`, `resetSeconds = 1`,
`minDelayMs = 1000`, `highDelayMs = 20000`, the code computes a pacing delay
of 10000 ms, while the claimed formula (floored at `highDelayMs` whenever
`remaining < 10` and additionally at 10000 ms when `remaining < 3`) gives
20000 ms. -/
theorem computeThrottle_ne_claimPacingDelay :
    computeThrottle 1000 20000 (some 2) (some 1) = 10000 ∧
    claimPacingDelay 1000 20000 2 1 = 20000 ∧ (10000 : ℤ) ≠ 20000 := by
  refine ⟨?_, ?_, by norm_num⟩
  · simp only [computeThrottle]; norm_num
  · simp only [claimPacingDelay]; norm_num

/-- C2, amended: for a completed non-throttled response carrying both
`remaining > 0` and `resetSeconds`, the pacing delay is
`max(minDelayMs, ceil(resetSeconds*1000/remaining))` floored at 10000 ms when
`remaining < 3`, and floored at `highDelayMs` when `3 ≤ remaining < 10`
(the `highDelayMs` floor is not applied below 3). -/
theorem computeThrottle_eq_formula (minDelay highDelay : ℤ) (r t : ℚ)
    (hr : 0 < r) :
    computeThrottle minDelay highDelay (some r) (some t) =
      max (max minDelay ⌈(t * 1000) / r⌉)
        (if r < 3 then 10000 else if r < 10 then highDelay else minDelay) := by
  simp only [computeThrottle, if_pos hr]
  by_cases h3 : r < 3
  · simp [h3]
  · by_cases h10 : r < 10
    · simp [h3, h10]
    · simp only [h3, h10, if_false]
      exact (max_eq_left (le_trans (le_max_left _ _) (le_refl _))).symm

/-- C2, witness: `remaining = 50`, `resetSeconds = 10`, `minDelayMs = 1000`
give a pacing delay of exactly 1000 ms. -/
theorem computeThrottle_eq_formula_witness :
    0 < (50 : ℚ) ∧ computeThrottle 1000 3000 (some 50) (some 10) = 1000 := by
  refine ⟨by norm_num, ?_⟩
  rw [computeThrottle_eq_formula 1000 3000 50 10 (by norm_num)]
  norm_num

/-- C3, counterexample: with `maxRetries = 3` and every attempt throttled,
the call receives 4 throttling responses and applies 4 backoff waits
(2000, 4000, 8000, 16000 ms) before failing — not the `maxRetries = 3`
throttling responses the claim states. -/
theorem fetchWithRateLimit_retry_count_ne_maxRetries :
    fetchWithRateLimit 3 2000 1000 3000 throttled429 =
      ([2000, 4000, 8000, 16000], none) ∧
    ([2000, 4000, 8000, 16000] : List ℤ).length ≠ 3 := by
  exact ⟨rfl, by norm_num⟩

/-- C3, amended: when every attempt is throttled, the pacer waits
`baseDelayMs` before the first retry and doubles the wait after each retry,
and the call fails with `QuotaExhausted` (modelled as `none`) only after
`maxRetries + 1` consecutive throttling responses (the initial attempt plus
`maxRetries` retries); the claim's concrete sequence 2000, 4000, 8000 before
failure on the would-be fourth attempt corresponds to `maxRetries = 2`. -/
theorem fetchWithRateLimit_all_throttled (maxRetries : ℕ)
    (baseDelay minDelay highDelay : ℤ) (resp : ℕ → Resp)
    (h : ∀ n, (resp n).status = 429) :
    fetchWithRateLimit maxRetries baseDelay minDelay highDelay resp =
      (doublingWaits baseDelay (maxRetries + 1), none) ∧
    (doublingWaits baseDelay (maxRetries + 1)).length = maxRetries + 1 := by
  constructor
  · exact rlLoop_all429 minDelay highDelay resp h (maxRetries + 1) 0 baseDelay
  · clear h
    induction maxRetries generalizing baseDelay with
    | zero => rfl
    | succ n ih => simpa [doublingWaits] using ih (baseDelay * 2)

/-- C3, witness: with `baseDelayMs = 2000` and `maxRetries = 2`, three
consecutive throttling responses produce exactly the waits
2000, 4000, 8000 ms and then `QuotaExhausted`. -/
theorem fetchWithRateLimit_all_throttled_witness :
    (∀ n, (throttled429 n).status = 429) ∧
    fetchWithRateLimit 2 2000 1000 3000 throttled429 =
      ([2000, 4000, 8000], none) := by
  refine ⟨fun n => rfl, ?_⟩
  rw [(fetchWithRateLimit_all_throttled 2 2000 1000 3000 throttled429
    fun n => rfl).1]
  rfl

/-- C6: a parent batch returning `actual < requested` items reduces
`totalWork` by exactly the shortfall, and a subsequent reply batch of `n`
replies increases it by exactly `n`. -/
theorem workEstimator_updates (w requested actual n : ℤ)
    (h : actual < requested) :
    onParentBatch w requested actual = w - (requested - actual) ∧
    onReplyBatch (onParentBatch w requested actual) n =
      w - (requested - actual) + n := by
  refine ⟨?_, ?_⟩ <;> simp [onParentBatch, onReplyBatch, if_pos h]

/-- C6, witness: `startGroup(100)`, `onParentBatch(requested=40, actual=30)`
gives `totalWork = 90`, then `onReplyBatch(12)` gives `totalWork = 102`. -/
theorem workEstimator_updates_witness :
    (30 : ℤ) < 40 ∧ onParentBatch 100 40 30 = 90 ∧
    onReplyBatch (onParentBatch 100 40 30) 12 = 102 := by
  have h := workEstimator_updates 100 40 30 12 (by norm_num)
  exact ⟨by norm_num, by rw [h.1]; norm_num, by rw [h.2]; norm_num⟩

/-- C7, counterexample: for `remaining = 2` with `resetSeconds` absent and
the default `highDelayMs = 3000`, the pacing delay is 3000 ms, below the
claimed 10000 ms floor. -/
theorem computeThrottle_low_quota_no_reset :
    computeThrottle 1000 3000 (some 2) none = 3000 ∧
    ¬ (10000 : ℤ) ≤ 3000 := by
  refine ⟨?_, by norm_num⟩
  simp only [computeThrottle]; norm_num

/-- C7, amended: the 10000 ms floor for `remaining < 3` applies only when
both `remaining` and `resetSeconds` are present and `remaining > 0`; when
`resetSeconds` is absent the delay is `highDelayMs` instead (3000 by
default). -/
theorem computeThrottle_low_quota_floor (minDelay highDelay : ℤ) (r t : ℚ)
    (h0 : 0 < r) (h3 : r < 3) :
    10000 ≤ computeThrottle minDelay highDelay (some r) (some t) := by
  simp only [computeThrottle, if_pos h0, if_pos h3]
  exact le_max_right _ _

/-- C7, witness: `remaining = 2`, `resetSeconds = 1` give a delay of at
least 10000 ms. -/
theorem computeThrottle_low_quota_floor_witness :
    (0 < (2 : ℚ) ∧ (2 : ℚ) < 3) ∧
    10000 ≤ computeThrottle 1000 3000 (some 2) (some 1) :=
  ⟨⟨by norm_num, by norm_num⟩,
    computeThrottle_low_quota_floor 1000 3000 2 1 (by norm_num) (by norm_num)⟩

/-- C10: the text normalizer is total: `null`/`undefined` and the empty
string yield `''`, and any non-empty input yields the lowercased text
tokenized and rejoined with single spaces, for every tokenizer. -/
theorem normalizeText_total (tok : String → List String) (s : String)
    (hs : s ≠ "") :
    normalizeText tok none = "" ∧ normalizeText tok (some "") = "" ∧
    normalizeText tok (some s) = String.intercalate " " (tok s.toLower) := by
  refine ⟨rfl, rfl, ?_⟩
  simp [normalizeText, hs]

/-- C10, witness: a concrete non-empty input is tokenized and rejoined with
single spaces. -/
theorem normalizeText_total_witness :
    ("A" : String) ≠ "" ∧
    normalizeText (fun _ => ["x", "y"]) (some "A") = "x y" := by
  refine ⟨by decide, ?_⟩
  rw [(normalizeText_total (fun _ => ["x", "y"]) "A" (by decide)).2.2]
  rfl

end OmegaRed
